import Mathlib

/-!
Verification of the kinect_table_system point-cloud transport codec,
level-of-detail reducer, interaction arbitration and frontend state
derivation.  The decoder and reducer are shallow embeddings of the
JavaScript functions `decodePointCloud` and the subsampling block of
`PointCloudViewer` (gesture_recognition_app); the frontend derivation
embeds `objectsWithState` of `InteractionOverlay.jsx` and the
selected/hovered id sets of `InteractionDemo`.  JavaScript numbers are
modelled as exact rationals; a non-finite (NaN or infinite) float value
is modelled as `none`.  A thrown-and-caught exception inside the decoder
is modelled by `Option` failure of the parsing step.
-/

namespace KinectTable

/-- Reads one byte of the buffer; `none` models an out-of-range index. -/
def byteAt : List Nat → Nat → Option Nat
  | [], _ => none
  | a :: _, 0 => some a
  | _ :: l, i + 1 => byteAt l i

/-- Little-endian `getUint16`; `none` models the `DataView` range throw. -/
def readU16 (l : List Nat) (i : Nat) : Option Nat := do
  let b0 ← byteAt l i
  let b1 ← byteAt l (i + 1)
  pure (b0 + 256 * b1)

/-- Little-endian `getUint32`; `none` models the `DataView` range throw. -/
def readU32 (l : List Nat) (i : Nat) : Option Nat := do
  let b0 ← byteAt l i
  let b1 ← byteAt l (i + 1)
  let b2 ← byteAt l (i + 2)
  let b3 ← byteAt l (i + 3)
  pure (b0 + 256 * b1 + 65536 * b2 + 16777216 * b3)

/-- Value of an IEEE-754 single-precision bit pattern, as an exact
rational; `none` models the non-finite values (NaN, infinities). -/
def f32ToRat (w : Nat) : Option ℚ :=
  let sgn : ℚ := if w / 2 ^ 31 % 2 = 1 then -1 else 1
  let ex : Nat := w / 2 ^ 23 % 2 ^ 8
  let m : Nat := w % 2 ^ 23
  if ex = 255 then none
  else if ex = 0 then some (sgn * ((m : ℚ) / 2 ^ 23) * (2 : ℚ) ^ (-126 : ℤ))
  else some (sgn * (1 + (m : ℚ) / 2 ^ 23) * (2 : ℚ) ^ ((ex : ℤ) - 127))

/-- Little-endian `getFloat32`; the outer `Option` models the `DataView`
range throw, the inner one non-finite values. -/
def readF32 (l : List Nat) (i : Nat) : Option (Option ℚ) :=
  (readU32 l i).map f32ToRat

/-- Dequantization affine map of the decoder:
`(q / maxVal) * range + min` with `maxVal = 65535`. -/
def dequantize (mn rg : ℚ) (q : Nat) : ℚ :=
  ((q : ℚ) / 65535) * rg + mn

/-- Dequantization lifted to possibly non-finite bounds. -/
def dequantQ (mn rg : Option ℚ) (q : Nat) : Option ℚ :=
  match mn, rg with
  | some m, some r => some (dequantize m r q)
  | _, _ => none

/-- The quantized-point loop of `decodePointCloud`: reads `n` records of
three little-endian `u16` starting at `off`, advancing 6 bytes per
record, and dequantizes each coordinate.  Produces the flat coordinate
list matching the `Float32Array` layout. -/
def readQPoints (l : List Nat) (mnx mny mnz rgx rgy rgz : Option ℚ)
    (off : Nat) : Nat → Option (List (Option ℚ))
  | 0 => some []
  | n + 1 => do
    let qx ← readU16 l off
    let qy ← readU16 l (off + 2)
    let qz ← readU16 l (off + 4)
    let rest ← readQPoints l mnx mny mnz rgx rgy rgz (off + 6) n
    pure (dequantQ mnx rgx qx :: dequantQ mny rgy qy :: dequantQ mnz rgz qz :: rest)

/-- The `new Float32Array(buffer, off, len)` view of the non-quantized
branch: JavaScript throws a `RangeError` unless `off` is a multiple of 4
and the view fits inside the buffer. -/
def float32View (l : List Nat) (off len : Nat) : Option (List (Option ℚ)) :=
  if off % 4 = 0 ∧ off + 4 * len ≤ l.length then
    some ((List.range len).map fun i => (readU32 l (off + 4 * i)).bind f32ToRat)
  else
    none

/-- The color loop of `decodePointCloud`: `rawData[offset + i] / 255`
for `i < 3 * n`.  An out-of-range `Uint8Array` index yields `undefined`,
and `undefined / 255` is NaN, modelled as `none`; no exception occurs. -/
def readColors (l : List Nat) (off n : Nat) : List (Option ℚ) :=
  (List.range (3 * n)).map fun i => (byteAt l (off + i)).map fun b : Nat => (b : ℚ) / 255

/-- The inbound point-cloud message object: the JSON `num_points` field
(`none` when absent), the payload bytes after base64 decoding, and the
`compressed` / `quantized` flags. -/
structure PCMessage where
  num_points : Option Nat
  payload : List Nat
  compressed : Bool
  quantized : Bool
deriving DecidableEq

/-- Result of `decodePointCloud`: `points` and `colors` are the flat
`Float32Array` contents (or `none` for the JavaScript `null`), and
`numPoints` the reported count. -/
structure DecodedCloud where
  points : Option (List (Option ℚ))
  colors : Option (List (Option ℚ))
  numPoints : Nat
deriving DecidableEq

/-- The explicit failure / empty result of the decoder. -/
def emptyCloud : DecodedCloud :=
  ⟨none, none, 0⟩

/-- The `try` block of `decodePointCloud`: inflation when compressed,
header parse, then the quantized or raw-float branch, then colors.
`none` models any thrown exception. -/
def decodeBody (inflate : List Nat → Option (List Nat)) (m : PCMessage) :
    Option DecodedCloud := do
  let rawData ← if m.compressed then inflate m.payload else some m.payload
  let n ← readU32 rawData 0
  let hc ← byteAt rawData 4
  if m.quantized then
    let mnx ← readF32 rawData 5
    let mny ← readF32 rawData 9
    let mnz ← readF32 rawData 13
    let rgx ← readF32 rawData 17
    let rgy ← readF32 rawData 21
    let rgz ← readF32 rawData 25
    let pts ← readQPoints rawData mnx mny mnz rgx rgy rgz 29 n
    let colors := if hc = 1 then some (readColors rawData (29 + 6 * n) n) else none
    pure ⟨some pts, colors, n⟩
  else
    let pts ← float32View rawData 5 (3 * n)
    let colors := if hc = 1 then some (readColors rawData (5 + 3 * n * 4) n) else none
    pure ⟨some pts, colors, n⟩

/-- `decodePointCloud`: the absent-data and `num_points === 0` guards,
then the `try` block with the `catch` returning the empty result. -/
def decodePointCloud (inflate : List Nat → Option (List Nat))
    (d : Option PCMessage) : DecodedCloud :=
  match d with
  | none => emptyCloud
  | some m =>
    if m.num_points = some 0 then emptyCloud
    else (decodeBody inflate m).getD emptyCloud

/-! Serialization of well-formed quantized payloads, used to state what
the decoder does on the §6 wire format. -/

/-- Little-endian bytes of a `u16`. -/
def u16Bytes (v : Nat) : List Nat :=
  [v % 256, v / 256 % 256]

/-- Little-endian bytes of a `u32` (also of an `f32` bit pattern). -/
def u32Bytes (v : Nat) : List Nat :=
  [v % 256, v / 256 % 256, v / 65536 % 256, v / 16777216 % 256]

/-- One quantized point record: three little-endian `u16`. -/
def qRecordBytes (p : Nat × Nat × Nat) : List Nat :=
  u16Bytes p.1 ++ u16Bytes p.2.1 ++ u16Bytes p.2.2

/-- A §6 quantized payload: `u32` count, `u8` color flag, six `f32`
bound words (min.x,min.y,min.z,range.x,range.y,range.z), the `u16`
records, then the color bytes. -/
def quantPayload (hc : Nat) (w1 w2 w3 w4 w5 w6 : Nat)
    (qs : List (Nat × Nat × Nat)) (cb : List Nat) : List Nat :=
  u32Bytes qs.length ++ ([hc] ++ (u32Bytes w1 ++ (u32Bytes w2 ++ (u32Bytes w3 ++
    (u32Bytes w4 ++ (u32Bytes w5 ++ (u32Bytes w6 ++ (qs.flatMap qRecordBytes ++ cb))))))))

/-- The fixed 29-byte prefix of a quantized payload. -/
def prefix29 (hc n w1 w2 w3 w4 w5 w6 : Nat) : List Nat :=
  u32Bytes n ++ ([hc] ++ (u32Bytes w1 ++ (u32Bytes w2 ++ (u32Bytes w3 ++
    (u32Bytes w4 ++ (u32Bytes w5 ++ u32Bytes w6))))))

theorem u32Bytes_sum (v : Nat) :
    v % 256 + 256 * (v / 256 % 256) + 65536 * (v / 65536 % 256) +
      16777216 * (v / 16777216 % 256) = v % 2 ^ 32 := by
  omega

theorem byteAt_shift (pre l : List Nat) (i : Nat) :
    byteAt (pre ++ l) (pre.length + i) = byteAt l i := by
  induction pre with
  | nil => simp
  | cons a pre ih =>
    have h : (a :: pre).length + i = pre.length + i + 1 := by
      simp [List.length_cons]
      omega
    rw [h]
    show byteAt (pre ++ l) (pre.length + i) = byteAt l i
    exact ih

theorem readU16_shift (pre l : List Nat) (i : Nat) :
    readU16 (pre ++ l) (pre.length + i) = readU16 l i := by
  unfold readU16
  rw [Nat.add_assoc pre.length i 1, byteAt_shift, byteAt_shift]

theorem readU16_u16Bytes (v : Nat) (rest : List Nat) :
    readU16 (u16Bytes v ++ rest) 0 = some (v % 65536) := by
  show some (v % 256 + 256 * (v / 256 % 256)) = some (v % 65536)
  congr 1
  omega

theorem readU32_quantPayload (hc w1 w2 w3 w4 w5 w6 : Nat)
    (qs : List (Nat × Nat × Nat)) (cb : List Nat) :
    readU32 (quantPayload hc w1 w2 w3 w4 w5 w6 qs cb) 0 = some (qs.length % 2 ^ 32) := by
  show some (qs.length % 256 + 256 * (qs.length / 256 % 256) +
    65536 * (qs.length / 65536 % 256) + 16777216 * (qs.length / 16777216 % 256)) = _
  rw [u32Bytes_sum]

theorem byteAt4_quantPayload (hc w1 w2 w3 w4 w5 w6 : Nat)
    (qs : List (Nat × Nat × Nat)) (cb : List Nat) :
    byteAt (quantPayload hc w1 w2 w3 w4 w5 w6 qs cb) 4 = some hc :=
  rfl

theorem byteAt_cons_succ (a : Nat) (l : List Nat) (i : Nat) :
    byteAt (a :: l) (i + 1) = byteAt l i :=
  rfl

theorem u16Bytes_sum (v : Nat) : v % 256 + 256 * (v / 256 % 256) = v % 65536 := by
  omega

theorem readU16_head (a b : Nat) (l : List Nat) :
    readU16 (a :: b :: l) 0 = some (a + 256 * b) :=
  rfl

theorem readU16_after2 (a b : Nat) (l : List Nat) :
    readU16 (a :: b :: l) 2 = readU16 l 0 :=
  rfl

theorem readU16_after4 (a b c d : Nat) (l : List Nat) :
    readU16 (a :: b :: c :: d :: l) 4 = readU16 l 0 :=
  rfl

theorem readQPoints_shift (pre l : List Nat) (b1 b2 b3 b4 b5 b6 : Option ℚ)
    (i n : Nat) :
    readQPoints (pre ++ l) b1 b2 b3 b4 b5 b6 (pre.length + i) n =
      readQPoints l b1 b2 b3 b4 b5 b6 i n := by
  induction n generalizing i with
  | zero => rfl
  | succ n ih =>
    simp only [readQPoints]
    rw [readU16_shift,
      show pre.length + i + 2 = pre.length + (i + 2) by omega, readU16_shift,
      show pre.length + i + 4 = pre.length + (i + 4) by omega, readU16_shift,
      show pre.length + i + 6 = pre.length + (i + 6) by omega, ih (i + 6)]

theorem readQPoints_after6 (c1 c2 c3 c4 c5 c6 : Nat) (l : List Nat)
    (b1 b2 b3 b4 b5 b6 : Option ℚ) (n : Nat) :
    readQPoints (c1 :: c2 :: c3 :: c4 :: c5 :: c6 :: l) b1 b2 b3 b4 b5 b6 6 n =
      readQPoints l b1 b2 b3 b4 b5 b6 0 n := by
  have h := readQPoints_shift [c1, c2, c3, c4, c5, c6] l b1 b2 b3 b4 b5 b6 0 n
  simpa using h

theorem readQPoints_records (b1 b2 b3 b4 b5 b6 : Option ℚ)
    (qs : List (Nat × Nat × Nat)) (cb : List Nat) :
    readQPoints (qs.flatMap qRecordBytes ++ cb) b1 b2 b3 b4 b5 b6 0 qs.length =
      some (qs.flatMap fun p =>
        [dequantQ b1 b4 (p.1 % 65536), dequantQ b2 b5 (p.2.1 % 65536),
         dequantQ b3 b6 (p.2.2 % 65536)]) := by
  induction qs with
  | nil => rfl
  | cons p t ih =>
    simp only [List.flatMap_cons, qRecordBytes, u16Bytes, List.cons_append,
      List.nil_append, List.append_assoc, List.length_cons]
    simp only [readQPoints, Nat.zero_add, readU16_head, readU16_after2, readU16_after4,
      readQPoints_after6, Option.some_bind]
    rw [ih]
    simp only [u16Bytes_sum]
    rfl

theorem readF32_qp1 (hc w1 w2 w3 w4 w5 w6 : Nat)
    (qs : List (Nat × Nat × Nat)) (cb : List Nat) :
    readF32 (quantPayload hc w1 w2 w3 w4 w5 w6 qs cb) 5 = some (f32ToRat (w1 % 2 ^ 32)) := by
  show some (f32ToRat (w1 % 256 + 256 * (w1 / 256 % 256) + 65536 * (w1 / 65536 % 256) +
    16777216 * (w1 / 16777216 % 256))) = _
  rw [u32Bytes_sum]

theorem readF32_qp2 (hc w1 w2 w3 w4 w5 w6 : Nat)
    (qs : List (Nat × Nat × Nat)) (cb : List Nat) :
    readF32 (quantPayload hc w1 w2 w3 w4 w5 w6 qs cb) 9 = some (f32ToRat (w2 % 2 ^ 32)) := by
  show some (f32ToRat (w2 % 256 + 256 * (w2 / 256 % 256) + 65536 * (w2 / 65536 % 256) +
    16777216 * (w2 / 16777216 % 256))) = _
  rw [u32Bytes_sum]

theorem readF32_qp3 (hc w1 w2 w3 w4 w5 w6 : Nat)
    (qs : List (Nat × Nat × Nat)) (cb : List Nat) :
    readF32 (quantPayload hc w1 w2 w3 w4 w5 w6 qs cb) 13 = some (f32ToRat (w3 % 2 ^ 32)) := by
  show some (f32ToRat (w3 % 256 + 256 * (w3 / 256 % 256) + 65536 * (w3 / 65536 % 256) +
    16777216 * (w3 / 16777216 % 256))) = _
  rw [u32Bytes_sum]

theorem readF32_qp4 (hc w1 w2 w3 w4 w5 w6 : Nat)
    (qs : List (Nat × Nat × Nat)) (cb : List Nat) :
    readF32 (quantPayload hc w1 w2 w3 w4 w5 w6 qs cb) 17 = some (f32ToRat (w4 % 2 ^ 32)) := by
  show some (f32ToRat (w4 % 256 + 256 * (w4 / 256 % 256) + 65536 * (w4 / 65536 % 256) +
    16777216 * (w4 / 16777216 % 256))) = _
  rw [u32Bytes_sum]

theorem readF32_qp5 (hc w1 w2 w3 w4 w5 w6 : Nat)
    (qs : List (Nat × Nat × Nat)) (cb : List Nat) :
    readF32 (quantPayload hc w1 w2 w3 w4 w5 w6 qs cb) 21 = some (f32ToRat (w5 % 2 ^ 32)) := by
  show some (f32ToRat (w5 % 256 + 256 * (w5 / 256 % 256) + 65536 * (w5 / 65536 % 256) +
    16777216 * (w5 / 16777216 % 256))) = _
  rw [u32Bytes_sum]

theorem readF32_qp6 (hc w1 w2 w3 w4 w5 w6 : Nat)
    (qs : List (Nat × Nat × Nat)) (cb : List Nat) :
    readF32 (quantPayload hc w1 w2 w3 w4 w5 w6 qs cb) 25 = some (f32ToRat (w6 % 2 ^ 32)) := by
  show some (f32ToRat (w6 % 256 + 256 * (w6 / 256 % 256) + 65536 * (w6 / 65536 % 256) +
    16777216 * (w6 / 16777216 % 256))) = _
  rw [u32Bytes_sum]

theorem flatMap_qRecord_length (qs : List (Nat × Nat × Nat)) :
    (qs.flatMap qRecordBytes).length = 6 * qs.length := by
  induction qs with
  | nil => rfl
  | cons p t ih =>
    simp only [List.flatMap_cons, List.length_append, List.length_cons, ih]
    show 6 + 6 * t.length = 6 * (t.length + 1)
    omega

theorem byteAt_range_map (g : Nat → ℚ) (l : List Nat) :
    (List.range l.length).map (fun i => (byteAt l i).map g) =
      l.map fun b => some (g b) := by
  induction l with
  | nil => rfl
  | cons a t ih =>
    rw [show (a :: t).length = t.length + 1 from rfl, List.range_succ_eq_map]
    simp only [List.map_cons, List.map_map]
    rw [show ((fun i => Option.map g (byteAt (a :: t) i)) ∘ Nat.succ) =
        (fun i => Option.map g (byteAt t i)) from funext fun i => rfl, ih]
    rfl

theorem readColors_records (pre cb : List Nat) (n off : Nat)
    (hoff : off = pre.length) (hcb : cb.length = 3 * n) :
    readColors (pre ++ cb) off n = cb.map fun b : Nat => some ((b : ℚ) / 255) := by
  subst hoff
  unfold readColors
  simp only [byteAt_shift]
  rw [← hcb]
  exact byteAt_range_map _ cb

/-- Byte reassembly sum of a little-endian `u32`. -/
def u32Sum (v : Nat) : Nat :=
  v % 256 + 256 * (v / 256 % 256) + 65536 * (v / 65536 % 256) +
    16777216 * (v / 16777216 % 256)

theorem u32Sum_eq (v : Nat) : u32Sum v = v % 2 ^ 32 := by
  unfold u32Sum
  omega

/-- What `decodePointCloud` returns on a serialized quantized payload:
the header count, the six bound words, and every `u16` record read back
and fed through the dequantization map. -/
theorem decode_quantPayload (inflate : List Nat → Option (List Nat)) (hint : Option Nat)
    (hc w1 w2 w3 w4 w5 w6 : Nat) (qs : List (Nat × Nat × Nat)) (cb : List Nat)
    (hhint : hint ≠ some 0) (hn : qs.length < 2 ^ 32) :
    decodePointCloud inflate (some ⟨hint, quantPayload hc w1 w2 w3 w4 w5 w6 qs cb, false, true⟩) =
      ⟨some (qs.flatMap fun p =>
          [dequantQ (f32ToRat (w1 % 2 ^ 32)) (f32ToRat (w4 % 2 ^ 32)) (p.1 % 65536),
           dequantQ (f32ToRat (w2 % 2 ^ 32)) (f32ToRat (w5 % 2 ^ 32)) (p.2.1 % 65536),
           dequantQ (f32ToRat (w3 % 2 ^ 32)) (f32ToRat (w6 % 2 ^ 32)) (p.2.2 % 65536)]),
        if hc = 1 then
          some (readColors (quantPayload hc w1 w2 w3 w4 w5 w6 qs cb) (29 + 6 * qs.length) qs.length)
        else none,
        qs.length⟩ := by
  have hbody : decodeBody inflate ⟨hint, quantPayload hc w1 w2 w3 w4 w5 w6 qs cb, false, true⟩ =
      (readQPoints (quantPayload hc w1 w2 w3 w4 w5 w6 qs cb)
          (f32ToRat (u32Sum w1)) (f32ToRat (u32Sum w2)) (f32ToRat (u32Sum w3))
          (f32ToRat (u32Sum w4)) (f32ToRat (u32Sum w5)) (f32ToRat (u32Sum w6))
          29 (u32Sum qs.length)).bind
        (fun pts => some ⟨some pts,
          if hc = 1 then
            some (readColors (quantPayload hc w1 w2 w3 w4 w5 w6 qs cb)
              (29 + 6 * u32Sum qs.length) (u32Sum qs.length))
          else none,
          u32Sum qs.length⟩) := rfl
  have hq : readQPoints (quantPayload hc w1 w2 w3 w4 w5 w6 qs cb)
      (f32ToRat (w1 % 2 ^ 32)) (f32ToRat (w2 % 2 ^ 32)) (f32ToRat (w3 % 2 ^ 32))
      (f32ToRat (w4 % 2 ^ 32)) (f32ToRat (w5 % 2 ^ 32)) (f32ToRat (w6 % 2 ^ 32))
      29 qs.length =
      some (qs.flatMap fun p =>
        [dequantQ (f32ToRat (w1 % 2 ^ 32)) (f32ToRat (w4 % 2 ^ 32)) (p.1 % 65536),
         dequantQ (f32ToRat (w2 % 2 ^ 32)) (f32ToRat (w5 % 2 ^ 32)) (p.2.1 % 65536),
         dequantQ (f32ToRat (w3 % 2 ^ 32)) (f32ToRat (w6 % 2 ^ 32)) (p.2.2 % 65536)]) := by
    rw [show quantPayload hc w1 w2 w3 w4 w5 w6 qs cb =
        prefix29 hc qs.length w1 w2 w3 w4 w5 w6 ++ (qs.flatMap qRecordBytes ++ cb) from rfl,
      show (29 : Nat) = (prefix29 hc qs.length w1 w2 w3 w4 w5 w6).length + 0 from rfl,
      readQPoints_shift, readQPoints_records]
  rw [show decodePointCloud inflate
      (some ⟨hint, quantPayload hc w1 w2 w3 w4 w5 w6 qs cb, false, true⟩) =
      (if hint = some 0 then emptyCloud
        else (decodeBody inflate
          ⟨hint, quantPayload hc w1 w2 w3 w4 w5 w6 qs cb, false, true⟩).getD emptyCloud) from rfl,
    if_neg hhint, hbody]
  simp only [u32Sum_eq, Nat.mod_eq_of_lt hn]
  rw [hq]
  rfl

theorem byteAt_none (l : List Nat) (i : Nat) (h : l.length ≤ i) : byteAt l i = none := by
  induction l generalizing i with
  | nil => rfl
  | cons a t ih =>
    match i with
    | 0 => exact absurd h (by simp)
    | j + 1 => exact ih j (by simp at h; omega)

theorem flatMap_congr_mem {α β : Type} (l : List α) (f g : α → List β)
    (h : ∀ a ∈ l, f a = g a) : l.flatMap f = l.flatMap g := by
  induction l with
  | nil => rfl
  | cons a t ih =>
    simp only [List.flatMap_cons, h a (by simp), ih fun b hb => h b (by simp [hb])]

/-- The §8 Scenario A payload: `num_points = 2`, `has_colors = 0`, two raw
float32 points `(0,0,0)` and `(1,1,1)` (the bytes of `1.0f` are
`[0, 0, 128, 63]` little-endian). -/
def scenarioABytes : List Nat :=
  [2, 0, 0, 0] ++ [0] ++ [0, 0, 0, 0, 0, 0, 0, 0, 0, 0, 0, 0] ++
    [0, 0, 128, 63, 0, 0, 128, 63, 0, 0, 128, 63]

/-- C1: the decoder is expected to return the two raw positions of the
Scenario A payload, but the non-quantized branch constructs
`new Float32Array(rawData.buffer, 5, numPoints * 3)`, and byte offset 5
is not a multiple of 4, so the constructor throws a `RangeError` and the
`catch` substitutes the empty result: the code returns
`{points: null, colors: null, numPoints: 0}` instead of the two points. -/
theorem scenarioA_decodes_empty :
    decodePointCloud (fun _ => none) (some ⟨some 2, scenarioABytes, false, false⟩) = emptyCloud ∧
    decodePointCloud (fun _ => none) (some ⟨some 2, scenarioABytes, false, false⟩) ≠
      ⟨some [some 0, some 0, some 0, some 1, some 1, some 1], none, 2⟩ := by
  constructor
  · rfl
  · decide

/-- A quantized payload (`num_points = 1`, `has_colors = 1`, zero bounds,
one zero record) whose three color bytes are missing. -/
def truncColorBytes : List Nat :=
  [1, 0, 0, 0] ++ [1] ++ List.replicate 24 0 ++ [0, 0, 0, 0, 0, 0]

theorem f32ToRat_zero : f32ToRat 0 = some 0 := by
  norm_num [f32ToRat]

theorem f32ToRat_one : f32ToRat 1065353216 = some 1 := by
  norm_num [f32ToRat]

/-- C2 counterexample: a body truncated inside the color section does not
yield the empty result; `rawData[offset + i]` on a `Uint8Array` returns
`undefined` out of range, and `undefined / 255` is NaN, so the decoder
returns the decoded position with three NaN color channels and
`numPoints = 1`. -/
theorem truncated_colors_not_empty :
    decodePointCloud (fun _ => none) (some ⟨some 1, truncColorBytes, false, true⟩) =
      ⟨some [some 0, some 0, some 0], some [none, none, none], 1⟩ ∧
    decodePointCloud (fun _ => none) (some ⟨some 1, truncColorBytes, false, true⟩) ≠
      emptyCloud := by
  have hcol : readColors (quantPayload 1 0 0 0 0 0 0 [(0, 0, 0)] [])
      (29 + 6 * List.length [((0 : Nat), (0 : Nat), (0 : Nat))])
      (List.length [((0 : Nat), (0 : Nat), (0 : Nat))]) = [none, none, none] := rfl
  have h1 : decodePointCloud (fun _ => none) (some ⟨some 1, truncColorBytes, false, true⟩) =
      ⟨some [some 0, some 0, some 0], some [none, none, none], 1⟩ := by
    rw [show truncColorBytes = quantPayload 1 0 0 0 0 0 0 [(0, 0, 0)] [] from rfl,
      decode_quantPayload (fun _ => none) (some 1) 1 0 0 0 0 0 0 [(0, 0, 0)] []
        (by decide) (by decide), hcol]
    norm_num [f32ToRat_zero, dequantQ, dequantize]
  refine ⟨h1, ?_⟩
  rw [h1]
  intro hcontra
  exact absurd (congrArg DecodedCloud.numPoints hcontra) (by decide)

/-- C2 (amended): `decodePointCloud` never throws — for every input it
returns either the successful `decodeBody` result or the explicit empty
result `{points: null, colors: null, numPoints: 0}`; a decompression
failure yields the empty result, and so does a body too short to hold
the five header bytes.  (A body truncated inside the color section
instead yields NaN color channels — see the counterexample.)  As a pure
function of its input, decode mutates no caller state. -/
theorem decode_no_throw (inflate : List Nat → Option (List Nat)) (d : Option PCMessage) :
    (decodePointCloud inflate d = emptyCloud ∨
      ∃ m, d = some m ∧ decodeBody inflate m = some (decodePointCloud inflate d)) ∧
    (∀ m : PCMessage, d = some m → m.compressed = true → inflate m.payload = none →
      decodePointCloud inflate d = emptyCloud) ∧
    (∀ m : PCMessage, d = some m → m.compressed = false → m.payload.length < 5 →
      decodePointCloud inflate d = emptyCloud) := by
  refine ⟨?_, ?_, ?_⟩
  · match d with
    | none => exact Or.inl rfl
    | some m =>
      by_cases h : m.num_points = some 0
      · exact Or.inl (by simp [decodePointCloud, h])
      · cases hb : decodeBody inflate m with
        | none => exact Or.inl (by simp [decodePointCloud, h, hb])
        | some r => exact Or.inr ⟨m, rfl, by simp [decodePointCloud, h, hb]⟩
  · intro m hd hcomp hinf
    subst hd
    by_cases h : m.num_points = some 0
    · simp [decodePointCloud, h]
    · have hb : decodeBody inflate m = none := by
        simp [decodeBody, hcomp, hinf]
      simp [decodePointCloud, h, hb]
  · intro m hd hcomp hlen
    subst hd
    by_cases h : m.num_points = some 0
    · simp [decodePointCloud, h]
    · have h4 : byteAt m.payload 4 = none := byteAt_none _ _ (by omega)
      have hb : decodeBody inflate m = none := by
        cases hr : readU32 m.payload 0 with
        | none => simp [decodeBody, hcomp, hr]
        | some n => simp [decodeBody, hcomp, hr, h4]
      simp [decodePointCloud, h, hb]

theorem decode_no_throw_witness :
    decodePointCloud (fun _ => none) (some ⟨none, [], true, false⟩) = emptyCloud :=
  (decode_no_throw (fun _ => none) (some ⟨none, [], true, false⟩)).2.1
    ⟨none, [], true, false⟩ rfl rfl rfl

/-- C7: a `num_points = 0` message and an absent message both decode to
the result with zero points, absent positions and absent colors, with no
error, regardless of the `has_colors`/`quantized`/`compressed` flags. -/
theorem decode_zero_or_absent (inflate : List Nat → Option (List Nat))
    (payload : List Nat) (c q : Bool) :
    decodePointCloud inflate none = emptyCloud ∧
    decodePointCloud inflate (some ⟨some 0, payload, c, q⟩) = emptyCloud ∧
    emptyCloud.points = none ∧ emptyCloud.colors = none ∧ emptyCloud.numPoints = 0 := by
  refine ⟨rfl, ?_, rfl, rfl, rfl⟩
  simp [decodePointCloud]

/-- C5: on every serialized quantized payload with finite per-axis
bounds, each decoded coordinate is the affine image
`(q / 65535) * range + min` of its 16-bit quantized value `q`, for each
of the x, y, z axes of every record. -/
theorem quantized_affine_map (inflate : List Nat → Option (List Nat)) (hint : Option Nat)
    (hc w1 w2 w3 w4 w5 w6 : Nat) (qs : List (Nat × Nat × Nat)) (cb : List Nat)
    (mn1 mn2 mn3 rg1 rg2 rg3 : ℚ)
    (hhint : hint ≠ some 0) (hn : qs.length < 2 ^ 32)
    (hw1 : w1 < 2 ^ 32) (hw2 : w2 < 2 ^ 32) (hw3 : w3 < 2 ^ 32)
    (hw4 : w4 < 2 ^ 32) (hw5 : w5 < 2 ^ 32) (hw6 : w6 < 2 ^ 32)
    (hf1 : f32ToRat w1 = some mn1) (hf2 : f32ToRat w2 = some mn2)
    (hf3 : f32ToRat w3 = some mn3) (hf4 : f32ToRat w4 = some rg1)
    (hf5 : f32ToRat w5 = some rg2) (hf6 : f32ToRat w6 = some rg3)
    (hq : ∀ p ∈ qs, p.1 < 65536 ∧ p.2.1 < 65536 ∧ p.2.2 < 65536) :
    (decodePointCloud inflate
        (some ⟨hint, quantPayload hc w1 w2 w3 w4 w5 w6 qs cb, false, true⟩)).points =
      some (qs.flatMap fun p =>
        [some ((p.1 : ℚ) / 65535 * rg1 + mn1),
         some ((p.2.1 : ℚ) / 65535 * rg2 + mn2),
         some ((p.2.2 : ℚ) / 65535 * rg3 + mn3)]) := by
  rw [decode_quantPayload inflate hint hc w1 w2 w3 w4 w5 w6 qs cb hhint hn]
  simp only [Nat.mod_eq_of_lt hw1, Nat.mod_eq_of_lt hw2, Nat.mod_eq_of_lt hw3,
    Nat.mod_eq_of_lt hw4, Nat.mod_eq_of_lt hw5, Nat.mod_eq_of_lt hw6,
    hf1, hf2, hf3, hf4, hf5, hf6]
  congr 1
  apply flatMap_congr_mem
  intro p hp
  obtain ⟨h1, h2, h3⟩ := hq p hp
  simp [dequantQ, dequantize, Nat.mod_eq_of_lt h1, Nat.mod_eq_of_lt h2, Nat.mod_eq_of_lt h3]

theorem quantized_affine_map_witness :
    (decodePointCloud (fun _ => none)
        (some ⟨none, quantPayload 0 0 0 0 1065353216 1065353216 1065353216
          [(0, 65535, 13107)] [], false, true⟩)).points =
      some ([((0 : Nat), (65535 : Nat), (13107 : Nat))].flatMap fun p =>
        [some ((p.1 : ℚ) / 65535 * 1 + 0),
         some ((p.2.1 : ℚ) / 65535 * 1 + 0),
         some ((p.2.2 : ℚ) / 65535 * 1 + 0)]) :=
  quantized_affine_map (fun _ => none) none 0 0 0 0 1065353216 1065353216 1065353216
    [(0, 65535, 13107)] [] 0 0 0 1 1 1
    (by decide) (by decide) (by decide) (by decide) (by decide) (by decide) (by decide)
    (by decide) f32ToRat_zero f32ToRat_zero f32ToRat_zero f32ToRat_one f32ToRat_one
    f32ToRat_one (by decide)

theorem prefix29_length (hc n w1 w2 w3 w4 w5 w6 : Nat) :
    (prefix29 hc n w1 w2 w3 w4 w5 w6).length = 29 :=
  rfl

/-- C8: when the header's `has_colors` byte is 1 and the body carries the
`num_points × 3` color bytes right after the position records, the
decoder produces each channel as that byte divided by 255, and every
decoded channel lies in [0, 1]. -/
theorem colors_bytes_decoded (inflate : List Nat → Option (List Nat)) (hint : Option Nat)
    (w1 w2 w3 w4 w5 w6 : Nat) (qs : List (Nat × Nat × Nat)) (cb : List Nat)
    (hhint : hint ≠ some 0) (hn : qs.length < 2 ^ 32)
    (hcb : cb.length = 3 * qs.length) (hbytes : ∀ b ∈ cb, b ≤ 255) :
    (decodePointCloud inflate
        (some ⟨hint, quantPayload 1 w1 w2 w3 w4 w5 w6 qs cb, false, true⟩)).colors =
      some (cb.map fun b : Nat => some ((b : ℚ) / 255)) ∧
    ∀ c : ℚ, some c ∈ (decodePointCloud inflate
        (some ⟨hint, quantPayload 1 w1 w2 w3 w4 w5 w6 qs cb, false, true⟩)).colors.getD [] →
      0 ≤ c ∧ c ≤ 1 := by
  have hcolors : (decodePointCloud inflate
      (some ⟨hint, quantPayload 1 w1 w2 w3 w4 w5 w6 qs cb, false, true⟩)).colors =
      some (cb.map fun b : Nat => some ((b : ℚ) / 255)) := by
    rw [decode_quantPayload inflate hint 1 w1 w2 w3 w4 w5 w6 qs cb hhint hn]
    show some (readColors (quantPayload 1 w1 w2 w3 w4 w5 w6 qs cb)
      (29 + 6 * qs.length) qs.length) = _
    rw [show quantPayload 1 w1 w2 w3 w4 w5 w6 qs cb =
        (prefix29 1 qs.length w1 w2 w3 w4 w5 w6 ++ qs.flatMap qRecordBytes) ++ cb from rfl]
    rw [readColors_records (prefix29 1 qs.length w1 w2 w3 w4 w5 w6 ++ qs.flatMap qRecordBytes)
      cb qs.length (29 + 6 * qs.length)
      (by rw [List.length_append, prefix29_length, flatMap_qRecord_length]) hcb]
  refine ⟨hcolors, ?_⟩
  intro c hc
  rw [hcolors] at hc
  simp only [Option.getD_some, List.mem_map] at hc
  obtain ⟨b, hb, hbc⟩ := hc
  have hb255 : (b : ℚ) ≤ 255 := by
    exact_mod_cast hbytes b hb
  have hc' : c = (b : ℚ) / 255 := by
    exact (Option.some_injective ℚ hbc).symm
  subst hc'
  constructor
  · positivity
  · rw [div_le_one (by norm_num)]
    exact hb255

theorem colors_bytes_decoded_witness :
    (decodePointCloud (fun _ => none)
        (some ⟨none, quantPayload 1 0 0 0 0 0 0 [(0, 0, 0)] [0, 128, 255], false, true⟩)).colors =
      some ([(0 : Nat), 128, 255].map fun b : Nat => some ((b : ℚ) / 255)) :=
  (colors_bytes_decoded (fun _ => none) none 0 0 0 0 0 0 [(0, 0, 0)] [0, 128, 255]
    (by decide) (by decide) (by decide) (by decide)).1

/-- Modelled from the spec: the encoder's quantize step (owned by the
emitting Python backend, which is not under src/) maps a coordinate into
a 16-bit integer against the per-axis bounds; §4.1 requires it to choose
bounds tight enough that the §8 round-trip bound holds, i.e. the nearest
16-bit lattice point of `(p - min) / range * 65535`, clamped to
`[0, 65535]`. -/
def quantize (mn rg p : ℚ) : Nat :=
  (max 0 (min 65535 (round ((p - mn) / rg * 65535)))).toNat

/-- C6: for any point within the quantization bounds `(min, range)`, the
per-axis round-trip error through the decoder's dequantization map is at
most `range / 65535`. -/
theorem quantize_roundtrip (mn rg p : ℚ) (hr : 0 ≤ rg) (h1 : mn ≤ p) (h2 : p ≤ mn + rg) :
    |dequantize mn rg (quantize mn rg p) - p| ≤ rg / 65535 := by
  rcases eq_or_lt_of_le hr with h0 | hpos
  · have hp : p = mn := le_antisymm (by linarith) h1
    subst hp
    rw [← h0]
    norm_num [quantize, dequantize]
  · set t : ℚ := (p - mn) / rg * 65535 with ht
    have ht0 : 0 ≤ t := by
      have : 0 ≤ (p - mn) / rg := div_nonneg (by linarith) (le_of_lt hpos)
      positivity
    have ht1 : t ≤ 65535 := by
      have hd : (p - mn) / rg ≤ 1 := (div_le_one hpos).mpr (by linarith)
      calc t = (p - mn) / rg * 65535 := ht
        _ ≤ 1 * 65535 := by
          apply mul_le_mul_of_nonneg_right hd
          norm_num
        _ = 65535 := by norm_num
    have hround0 : (0 : ℤ) ≤ round t := by
      rw [round_eq]
      exact Int.le_floor.mpr (by push_cast; linarith)
    have hround1 : round t ≤ 65535 := by
      rw [round_eq]
      have : (⌊t + 1 / 2⌋ : ℤ) < 65536 := Int.floor_lt.mpr (by push_cast; linarith)
      omega
    have hclamp : max 0 (min 65535 (round t)) = round t := by omega
    have hq : ((quantize mn rg p : Nat) : ℚ) = ((round t : ℤ) : ℚ) := by
      unfold quantize
      rw [← ht, hclamp]
      exact_mod_cast congrArg Int.cast (Int.toNat_of_nonneg hround0)
    have hkey : dequantize mn rg (quantize mn rg p) - p =
        (((round t : ℤ) : ℚ) - t) / 65535 * rg := by
      unfold dequantize
      rw [hq]
      have hp : p = mn + t / 65535 * rg := by
        rw [ht]
        field_simp
        ring
      rw [hp]
      ring
    rw [hkey, abs_mul, abs_div, abs_of_nonneg (le_of_lt hpos)]
    have habs : |((round t : ℤ) : ℚ) - t| ≤ 1 / 2 := by
      rw [abs_sub_comm]
      exact abs_sub_round t
    have h65 : |(65535 : ℚ)| = 65535 := by norm_num
    rw [h65]
    rw [div_mul_eq_mul_div, div_le_div_iff₀ (by norm_num) (by norm_num)]
    nlinarith [abs_nonneg (((round t : ℤ) : ℚ) - t)]

theorem quantize_roundtrip_witness :
    |dequantize 0 1 (quantize 0 1 (1 / 3)) - 1 / 3| ≤ (1 : ℚ) / 65535 :=
  quantize_roundtrip 0 1 (1 / 3) (by norm_num) (by norm_num) (by norm_num)

/-! The level-of-detail reducer: the subsampling block of the
`PointCloudViewer` update effect. -/

/-- `Math.ceil(numPoints / maxDisplayPoints)` for positive budgets. -/
def strideOf (n budget : Nat) : Nat :=
  (n + budget - 1) / budget

/-- The LOD subsampling block: when the decoded count exceeds the
budget, copies every `step`-th record (and its color record, when colors
are present) while both loop conditions `i < numPoints`
and `j < newNumPoints` hold; otherwise the data passes through
unchanged.  Returns (points, colors, displayedPoints). -/
def lodReduce {P C : Type} [Inhabited P] [Inhabited C] (budget n : Nat)
    (pts : List P) (cols : Option (List C)) : List P × Option (List C) × Nat :=
  if budget < n then
    let step := strideOf n budget
    let newN := n / step
    let keep := (List.range newN).takeWhile fun j => j * step < n
    (keep.map fun j => pts.getD (j * step) default,
     cols.map fun cs => keep.map fun j => cs.getD (j * step) default,
     newN)
  else (pts, cols, n)

theorem takeWhile_length_le {α : Type} (p : α → Bool) (l : List α) :
    (l.takeWhile p).length ≤ l.length :=
  (List.takeWhile_sublist (l := l) p).length_le

theorem takeWhile_of_all {α : Type} (p : α → Bool) (l : List α)
    (h : ∀ x ∈ l, p x = true) : l.takeWhile p = l := by
  induction l with
  | nil => rfl
  | cons a t ih =>
    have ha := h a (by simp)
    simp [List.takeWhile_cons, ha, ih fun x hx => h x (by simp [hx])]

theorem stride_pos (n budget : Nat) (hb : 1 ≤ budget) (hn : budget < n) :
    1 ≤ strideOf n budget := by
  unfold strideOf
  rw [Nat.le_div_iff_mul_le (by omega)]
  omega

theorem le_budget_mul_stride (n budget : Nat) (hb : 1 ≤ budget) :
    n ≤ budget * strideOf n budget := by
  unfold strideOf
  have h1 := Nat.div_add_mod (n + budget - 1) budget
  have h2 : (n + budget - 1) % budget < budget := Nat.mod_lt _ (by omega)
  omega

theorem budget_mul_stride_pred_lt (n budget : Nat) (hb : 1 ≤ budget) (hn : budget < n) :
    budget * (strideOf n budget - 1) < n := by
  have hs := stride_pos n budget hb hn
  have h3 : budget * strideOf n budget ≤ n + budget - 1 := by
    unfold strideOf
    rw [Nat.mul_comm]
    exact Nat.div_mul_le_self _ _
  have h4 : budget * (strideOf n budget - 1) = budget * strideOf n budget - budget := by
    rw [Nat.mul_sub_one]
  omega

theorem div_stride_le_budget (n budget : Nat) (hb : 1 ≤ budget) (hn : budget < n) :
    n / strideOf n budget ≤ budget := by
  have hs := stride_pos n budget hb hn
  have h1 : n / strideOf n budget ≤ budget * strideOf n budget / strideOf n budget :=
    Nat.div_le_div_right (le_budget_mul_stride n budget hb)
  rwa [Nat.mul_div_cancel _ (by omega)] at h1

theorem mul_stride_lt (n budget j : Nat) (hb : 1 ≤ budget) (hn : budget < n)
    (hj : j < n / strideOf n budget) : j * strideOf n budget < n := by
  have hs := stride_pos n budget hb hn
  have h2 : (j + 1) * strideOf n budget ≤ (n / strideOf n budget) * strideOf n budget :=
    Nat.mul_le_mul_right _ hj
  have h3 : (n / strideOf n budget) * strideOf n budget ≤ n := Nat.div_mul_le_self n _
  rw [Nat.succ_mul] at h2
  omega

theorem lodReduce_keep_all (n budget : Nat) (hb : 1 ≤ budget) (hn : budget < n) :
    ((List.range (n / strideOf n budget)).takeWhile
      fun j => j * strideOf n budget < n) = List.range (n / strideOf n budget) := by
  apply takeWhile_of_all
  intro x hx
  rw [List.mem_range] at hx
  simp only [decide_eq_true_eq]
  exact mul_stride_lt n budget x hb hn hx

/-- C4: for every point list and every budget of at least 1, the LOD
reduction outputs at most `budget` points (both the list and the
reported count), and when the input count is within the budget the
output is the input unchanged. -/
theorem lodReduce_budget {P C : Type} [Inhabited P] [Inhabited C] (budget n : Nat)
    (hb : 1 ≤ budget) (pts : List P) (cols : Option (List C)) (hlen : pts.length = n) :
    (lodReduce budget n pts cols).1.length ≤ budget ∧
    (lodReduce budget n pts cols).2.2 ≤ budget ∧
    (n ≤ budget → lodReduce budget n pts cols = (pts, cols, n)) := by
  by_cases h : budget < n
  · have hkeep : ((List.range (n / strideOf n budget)).takeWhile
        fun j => j * strideOf n budget < n).length ≤ n / strideOf n budget := by
      calc ((List.range (n / strideOf n budget)).takeWhile
            fun j => j * strideOf n budget < n).length
          ≤ (List.range (n / strideOf n budget)).length := takeWhile_length_le _ _
        _ = n / strideOf n budget := List.length_range _
    have hq := div_stride_le_budget n budget hb h
    refine ⟨?_, ?_, fun hcontra => absurd hcontra (by omega)⟩
    · simp only [lodReduce, if_pos h, List.length_map]
      omega
    · simp only [lodReduce, if_pos h]
      omega
  · refine ⟨?_, ?_, fun _ => by simp [lodReduce, h]⟩
    · simp only [lodReduce, if_neg h, hlen]
      omega
    · simp only [lodReduce, if_neg h]
      omega

theorem lodReduce_budget_witness :
    (lodReduce 3 2 [10, 20] (none : Option (List Nat))).1.length ≤ 3 ∧
    (lodReduce 3 2 [10, 20] (none : Option (List Nat))).2.2 ≤ 3 ∧
    (2 ≤ 3 → lodReduce 3 2 [10, 20] (none : Option (List Nat)) = ([10, 20], none, 2)) :=
  lodReduce_budget 3 2 (by decide) [10, 20] none (by decide)

/-- C3: when the decoded count exceeds the budget, the reduction keeps
exactly every `stride`-th point (and its color) in original index order,
where `stride` is the ceiling of `n / budget` (characterized by
`budget * (stride - 1) < n ≤ budget * stride`), and produces
`n / stride` points. -/
theorem lodReduce_stride {P C : Type} [Inhabited P] [Inhabited C] (budget n : Nat)
    (hb : 1 ≤ budget) (hn : budget < n) (pts : List P) (cols : List C)
    (hp : pts.length = n) (hc : cols.length = n) :
    budget * (strideOf n budget - 1) < n ∧ n ≤ budget * strideOf n budget ∧
    (lodReduce budget n pts (some cols)).2.2 = n / strideOf n budget ∧
    (lodReduce budget n pts (some cols)).1.length = n / strideOf n budget ∧
    (∀ j, j < n / strideOf n budget →
      (lodReduce budget n pts (some cols)).1[j]? = pts[j * strideOf n budget]?) ∧
    ∃ cs, (lodReduce budget n pts (some cols)).2.1 = some cs ∧
      cs.length = n / strideOf n budget ∧
      ∀ j, j < n / strideOf n budget → cs[j]? = cols[j * strideOf n budget]? := by
  have hkeep := lodReduce_keep_all n budget hb hn
  refine ⟨budget_mul_stride_pred_lt n budget hb hn, le_budget_mul_stride n budget hb,
    ?_, ?_, ?_, ?_⟩
  · simp [lodReduce, if_pos hn]
  · simp [lodReduce, if_pos hn, hkeep]
  · intro j hj
    have hlt := mul_stride_lt n budget j hb hn hj
    have hlhs : (lodReduce budget n pts (some cols)).1 =
        (List.range (n / strideOf n budget)).map
          fun k => pts.getD (k * strideOf n budget) default := by
      simp [lodReduce, if_pos hn, hkeep]
    rw [hlhs, List.getElem?_map, List.getElem?_range hj, Option.map_some']
    rw [List.getD_eq_getElem?_getD,
      List.getElem?_eq_getElem (show j * strideOf n budget < pts.length by omega)]
    rfl
  · refine ⟨(List.range (n / strideOf n budget)).map
      fun k => cols.getD (k * strideOf n budget) default, ?_, ?_, ?_⟩
    · simp [lodReduce, if_pos hn, hkeep]
    · simp
    · intro j hj
      have hlt := mul_stride_lt n budget j hb hn hj
      rw [List.getElem?_map, List.getElem?_range hj, Option.map_some']
      rw [List.getD_eq_getElem?_getD,
        List.getElem?_eq_getElem (show j * strideOf n budget < cols.length by omega)]
      rfl

/-- Scenario E instance: a 100,000-point frame reduced with budget
25,000 yields exactly 25,000 points, every 4th original point. -/
theorem lodReduce_stride_witness :
    (lodReduce 25000 100000 (List.replicate 100000 (0 : Nat))
        (some (List.replicate 100000 (0 : Nat)))).2.2 = 25000 ∧
    strideOf 100000 25000 = 4 := by
  have hs : strideOf 100000 25000 = 4 := by rw [strideOf]
  have h := lodReduce_stride 25000 100000 (by norm_num) (by norm_num)
    (List.replicate 100000 (0 : Nat)) (List.replicate 100000 (0 : Nat))
    (by rw [List.length_replicate]) (by rw [List.length_replicate])
  refine ⟨?_, hs⟩
  rw [h.2.2.1, hs]

/-! Modelled from the spec: the hand interaction state machine and the
object-lock arbitration (§4.4, §4.5, §5) live in the Python backend
interaction engine, which is not present under src/ (the frontend only
renders its snapshots).  The model follows the §4.5 transition table
with the §4.4 lock discipline: a hand entering `dragging` must acquire
the exclusive lock, and the lock is released when the hand leaves
`dragging`/`selected` or disappears (where the table's
`dragging → selected` row instead says the lock is released on entering
`selected`, §4.4 — which the spec designates as what guarantees the §3
invariant — takes precedence).  Hands are processed in the fixed order
Left before Right (§5). -/

inductive Gesture where
  | open_palm
  | closed_fist
  | pinch
  | pointing
  | unknown
deriving DecidableEq

inductive HandPhase where
  | idle
  | hover
  | selected
  | dragging
deriving DecidableEq

/-- Modelled from the spec: per-hand interaction state (§3 HandState),
reduced to the fields the arbitration invariant concerns. -/
structure Hand where
  phase : HandPhase
  hovered : Option Nat
  sel : Option Nat
deriving DecidableEq

/-- One tick's input for one hand: presence, hit-test result for its
cursor, and the classified gesture symbol. -/
structure HandInput where
  present : Bool
  hit : Option Nat
  gesture : Gesture

/-- The lock table: object id paired with the owning hand
(`true` = Left, `false` = Right). -/
def lockOwner (locks : List (Nat × Bool)) (o : Nat) : Option Bool :=
  (locks.find? fun e => e.1 == o).map fun e => e.2

/-- Release every lock held by one hand. -/
def releaseLocks (locks : List (Nat × Bool)) (who : Bool) : List (Nat × Bool) :=
  locks.filter fun e => e.2 != who

def idleHand : Hand :=
  ⟨HandPhase.idle, none, none⟩

/-- Lock effect of one hand transition. -/
inductive LockAct where
  | keep
  | release
  | acquire (o : Nat)

/-- Modelled from the spec: the §4.5 transition table for one hand.
Returns the new hand state and the lock effect: `acquire` only on the
`hover → dragging` row after arbitration grants the lock, `release` on
disappearance and on the rows leaving `selected`. -/
def stepHandCore (locks : List (Nat × Bool)) (h : Hand) (inp : HandInput) :
    Hand × LockAct :=
  if inp.present = false then (idleHand, LockAct.release)
  else
    match h.phase with
    | HandPhase.idle =>
      match inp.hit with
      | some o =>
        if inp.gesture ≠ Gesture.closed_fist then (⟨HandPhase.hover, some o, none⟩, LockAct.keep)
        else (h, LockAct.keep)
      | none => (h, LockAct.keep)
    | HandPhase.hover =>
      if inp.gesture = Gesture.closed_fist then
        match h.hovered with
        | some o =>
          if lockOwner locks o = none then (⟨HandPhase.dragging, none, some o⟩, LockAct.acquire o)
          else (h, LockAct.keep)
        | none => (idleHand, LockAct.keep)
      else
        match inp.hit with
        | some o => (⟨HandPhase.hover, some o, none⟩, LockAct.keep)
        | none => (idleHand, LockAct.keep)
    | HandPhase.dragging =>
      if inp.gesture = Gesture.closed_fist then (h, LockAct.keep)
      else (⟨HandPhase.selected, none, h.sel⟩, LockAct.keep)
    | HandPhase.selected =>
      match h.sel with
      | none => (idleHand, LockAct.keep)
      | some s =>
        if inp.gesture = Gesture.closed_fist ∧ inp.hit = some s then
          (⟨HandPhase.dragging, none, some s⟩, LockAct.keep)
        else if inp.gesture = Gesture.open_palm ∧ inp.hit ≠ some s then
          match inp.hit with
          | some o => (⟨HandPhase.hover, some o, none⟩, LockAct.release)
          | none => (idleHand, LockAct.release)
        else (h, LockAct.keep)

/-- Apply a lock effect for the given hand. -/
def applyLock (who : Bool) (locks : List (Nat × Bool)) : LockAct → List (Nat × Bool)
  | LockAct.keep => locks
  | LockAct.release => releaseLocks locks who
  | LockAct.acquire o => (o, who) :: locks

/-- One hand's tick: transition plus lock-table update. -/
def stepHand (who : Bool) (locks : List (Nat × Bool)) (h : Hand) (inp : HandInput) :
    Hand × List (Nat × Bool) :=
  ((stepHandCore locks h inp).1, applyLock who locks (stepHandCore locks h inp).2)

/-- Modelled from the spec: the engine state — both hands and the shared
lock table owned by the Object Store. -/
structure Engine where
  left : Hand
  right : Hand
  locks : List (Nat × Bool)
deriving DecidableEq

def initEngine : Engine :=
  ⟨idleHand, idleHand, []⟩

/-- One engine tick: Left is processed before Right (§5 fixed order),
the Right hand seeing the lock table left behind by the Left hand. -/
def stepEngine (e : Engine) (li ri : HandInput) : Engine :=
  ⟨(stepHand true e.locks e.left li).1,
   (stepHand false (stepHand true e.locks e.left li).2 e.right ri).1,
   (stepHand false (stepHand true e.locks e.left li).2 e.right ri).2⟩

/-- Every selected id is locked by its selecting hand. -/
def SelLocked (e : Engine) : Prop :=
  (∀ o, e.left.sel = some o → lockOwner e.locks o = some true) ∧
  (∀ o, e.right.sel = some o → lockOwner e.locks o = some false)

/-- Engine states reachable from the initial state by ticks. -/
inductive Reaches : Engine → Prop where
  | init : Reaches initEngine
  | step (e : Engine) (li ri : HandInput) : Reaches e → Reaches (stepEngine e li ri)

theorem lockOwner_cons (o' : Nat) (w : Bool) (locks : List (Nat × Bool)) (o : Nat) :
    lockOwner ((o', w) :: locks) o = if o' = o then some w else lockOwner locks o := by
  by_cases h : o' = o
  · have hb : (o' == o) = true := by simp [h]
    simp [lockOwner, List.find?, hb, h]
  · have hb : (o' == o) = false := by simp [h]
    simp [lockOwner, List.find?, hb, h]

theorem lockOwner_release_ne (locks : List (Nat × Bool)) (w w' : Bool) (o : Nat)
    (hne : w' ≠ w) (h : lockOwner locks o = some w') :
    lockOwner (releaseLocks locks w) o = some w' := by
  induction locks with
  | nil => simp [lockOwner, List.find?] at h
  | cons e t ih =>
    obtain ⟨o', wo⟩ := e
    rw [lockOwner_cons] at h
    by_cases ho : o' = o
    · rw [if_pos ho] at h
      have hw : wo = w' := Option.some_injective _ h
      subst hw
      have hkeep : (wo != w) = true := by simp [hne]
      simp only [releaseLocks, List.filter_cons, hkeep, if_true]
      rw [show List.filter (fun e => e.2 != w) t = releaseLocks t w from rfl,
        lockOwner_cons, if_pos ho]
    · rw [if_neg ho] at h
      by_cases hw : (wo != w) = true
      · simp only [releaseLocks, List.filter_cons, hw, if_true]
        rw [show List.filter (fun e => e.2 != w) t = releaseLocks t w from rfl,
          lockOwner_cons, if_neg ho]
        exact ih h
      · simp only [Bool.not_eq_true] at hw
        simp only [releaseLocks, List.filter_cons, hw, Bool.false_eq_true, if_false]
        exact ih h

theorem stepHandCore_acquire_free (locks : List (Nat × Bool)) (h : Hand) (inp : HandInput)
    (h' : Hand) (o' : Nat)
    (heq : stepHandCore locks h inp = (h', LockAct.acquire o')) :
    lockOwner locks o' = none := by
  unfold stepHandCore at heq
  split at heq
  · simp at heq
  · split at heq
    · split at heq <;> [split at heq; skip] <;> simp_all
    · split at heq
      · split at heq
        · split at heq
          · obtain ⟨h1, h2⟩ := Prod.mk.injEq .. ▸ heq
            cases h2
            simp_all
          · simp at heq
        · simp at heq
      · split at heq <;> simp_all
    · split at heq <;> simp_all
    · split at heq
      · simp at heq
      · split at heq
        · simp at heq
        · split at heq
          · split at heq <;> simp_all
          · simp at heq

theorem stepHandCore_sel_cases (locks : List (Nat × Bool)) (h : Hand) (inp : HandInput) :
    (stepHandCore locks h inp).1.sel = none ∨
    ((stepHandCore locks h inp).1.sel = h.sel ∧ (stepHandCore locks h inp).2 = LockAct.keep) ∨
    (∃ o, (stepHandCore locks h inp).1.sel = some o ∧
      (stepHandCore locks h inp).2 = LockAct.acquire o) := by
  unfold stepHandCore
  repeat' split
  all_goals simp_all [idleHand]

theorem stepHand_sel_locked (who : Bool) (locks : List (Nat × Bool)) (h : Hand)
    (inp : HandInput) (hh : ∀ o, h.sel = some o → lockOwner locks o = some who) (o : Nat)
    (ho : (stepHand who locks h inp).1.sel = some o) :
    lockOwner (stepHand who locks h inp).2 o = some who := by
  rcases stepHandCore_sel_cases locks h inp with hc | ⟨hsel, hact⟩ | ⟨o', hsel, hact⟩
  · unfold stepHand at ho
    rw [hc] at ho
    exact Option.noConfusion ho
  · unfold stepHand at ho ⊢
    rw [hact]
    exact hh o (hsel ▸ ho)
  · unfold stepHand at ho ⊢
    rw [hact]
    rw [hsel] at ho
    have hoo : o' = o := Option.some_injective _ ho
    subst hoo
    show lockOwner ((o', who) :: locks) o' = some who
    rw [lockOwner_cons, if_pos rfl]

theorem stepHand_preserves_other (who : Bool) (locks : List (Nat × Bool)) (h : Hand)
    (inp : HandInput) (o : Nat) (w : Bool) (hw : w ≠ who)
    (hl : lockOwner locks o = some w) :
    lockOwner (stepHand who locks h inp).2 o = some w := by
  unfold stepHand
  cases hact : (stepHandCore locks h inp).2 with
  | keep => exact hl
  | release => exact lockOwner_release_ne locks who w o hw hl
  | acquire o' =>
    have heq : stepHandCore locks h inp =
        ((stepHandCore locks h inp).1, LockAct.acquire o') := by
      rw [← hact]
    have hfree := stepHandCore_acquire_free locks h inp _ o' heq
    show lockOwner ((o', who) :: locks) o = some w
    rw [lockOwner_cons, if_neg ?_]
    · exact hl
    · intro hoo
      subst hoo
      rw [hl] at hfree
      exact Option.noConfusion hfree

theorem stepEngine_selLocked (e : Engine) (li ri : HandInput) (he : SelLocked e) :
    SelLocked (stepEngine e li ri) := by
  obtain ⟨hl, hr⟩ := he
  constructor
  · intro o ho
    have h1 := stepHand_sel_locked true e.locks e.left li hl o ho
    exact stepHand_preserves_other false (stepHand true e.locks e.left li).2 e.right ri
      o true (by simp) h1
  · intro o ho
    have hr' : ∀ o', e.right.sel = some o' →
        lockOwner (stepHand true e.locks e.left li).2 o' = some false := fun o' ho' =>
      stepHand_preserves_other true e.locks e.left li o' false (by simp) (hr o' ho')
    exact stepHand_sel_locked false (stepHand true e.locks e.left li).2 e.right ri hr' o ho

theorem reaches_selLocked (e : Engine) (h : Reaches e) : SelLocked e := by
  induction h with
  | init =>
    constructor
    · intro o ho
      exact Option.noConfusion ho
    · intro o ho
      exact Option.noConfusion ho
  | step e li ri _ ih => exact stepEngine_selLocked e li ri ih

/-- C9: in every reachable engine state, no object id is held as
`selected` by both hands at once — the Left-before-Right lock
arbitration gives at most one owner per object id. -/
theorem hand_mutual_exclusion (e : Engine) (h : Reaches e) (o : Nat) :
    ¬(e.left.sel = some o ∧ e.right.sel = some o) := by
  obtain ⟨hl, hr⟩ := reaches_selLocked e h
  rintro ⟨h1, h2⟩
  have hL := hl o h1
  have hR := hr o h2
  rw [hL] at hR
  simp at hR

theorem hand_mutual_exclusion_witness :
    ¬(initEngine.left.sel = some 7 ∧ initEngine.right.sel = some 7) :=
  hand_mutual_exclusion initEngine Reaches.init 7

/-! The frontend derivation of per-object display state from an
interaction snapshot: `objectsWithState` of `InteractionOverlay.jsx` and
the `selectedIds`/`hoveredIds` memos of `InteractionDemo`. -/

/-- One hand entry of an interaction snapshot as the frontend sees it. -/
structure HandSnap where
  hovered : Option Nat
  selected : Option Nat
deriving DecidableEq

/-- JavaScript truthiness of an optional object id (`if (hand.selected)`
is false for `null`, `undefined` and the id 0). -/
def truthyId : Option Nat → Bool
  | some n => n != 0
  | none => false

/-- The `selectedIds` set: every truthy `hand.selected`. -/
def selectedIdsOf (hs : List HandSnap) : List Nat :=
  hs.filterMap fun h => if truthyId h.selected then h.selected else none

/-- The `hoveredIds` set of `InteractionOverlay`: every truthy
`hand.hovered`, with no exclusion at construction. -/
def hoveredIdsOf (hs : List HandSnap) : List Nat :=
  hs.filterMap fun h => if truthyId h.hovered then h.hovered else none

/-- An object entry of the snapshot (`obj.id` may be absent). -/
structure ObjSnap where
  oid : Option Nat
deriving DecidableEq

/-- The `obj.id || index` fallback (id 0 is falsy). -/
def jsObjId (o : ObjSnap) (index : Nat) : Nat :=
  match o.oid with
  | some i => if i != 0 then i else index
  | none => index

/-- Derived display state of one object. -/
structure ObjState where
  oid : Nat
  isSelected : Bool
  isHovered : Bool
deriving DecidableEq

/-- The `objectsWithState` memo of `InteractionOverlay`:
`isSelected = selectedIds.has(id)` and
`isHovered = hoveredIds.has(id) && !selectedIds.has(id)`. -/
def objectsWithState (hs : List HandSnap) (objs : List ObjSnap) : List ObjState :=
  objs.enum.map fun pr =>
    ⟨jsObjId pr.2 pr.1,
     (selectedIdsOf hs).contains (jsObjId pr.2 pr.1),
     (hoveredIdsOf hs).contains (jsObjId pr.2 pr.1) &&
       !(selectedIdsOf hs).contains (jsObjId pr.2 pr.1)⟩

/-- The `hoveredIds` memo of `InteractionDemo`: a truthy `hand.hovered`
is added only when it is not in `selectedIds`. -/
def hoveredIdsDemo (hs : List HandSnap) : List Nat :=
  hs.filterMap fun h =>
    if truthyId h.hovered && !(selectedIdsOf hs).contains (h.hovered.getD 0) then h.hovered
    else none

/-- C10: in both frontend derivations, hovered excludes selected — no
object is ever marked both hovered and selected in `objectsWithState`,
and `InteractionDemo`'s hovered id set is disjoint from its selected id
set. -/
theorem hovered_excludes_selected (hs : List HandSnap) (objs : List ObjSnap) :
    (∀ s ∈ objectsWithState hs objs, ¬(s.isSelected = true ∧ s.isHovered = true)) ∧
    (∀ i ∈ hoveredIdsDemo hs, i ∉ selectedIdsOf hs) := by
  constructor
  · intro s hsmem
    obtain ⟨pr, _, hpr⟩ := List.mem_map.mp hsmem
    rintro ⟨hsel, hhov⟩
    rw [← hpr] at hsel hhov
    simp only at hsel hhov
    rw [hsel] at hhov
    simp at hhov
  · intro i hi
    rw [hoveredIdsDemo, List.mem_filterMap] at hi
    obtain ⟨h, _, hcond⟩ := hi
    by_cases hc : (truthyId h.hovered &&
        !(selectedIdsOf hs).contains (h.hovered.getD 0)) = true
    · rw [if_pos hc] at hcond
      rw [hcond] at hc
      simp only [Option.getD_some, Bool.and_eq_true, Bool.not_eq_true'] at hc
      intro hmem2
      have : (selectedIdsOf hs).contains i = true := List.elem_eq_true_of_mem hmem2
      rw [this] at hc
      exact Bool.noConfusion hc.2
    · rw [if_neg hc] at hcond
      exact Option.noConfusion hcond

theorem hovered_excludes_selected_witness :
    ¬((⟨1, true, false⟩ : ObjState).isSelected = true ∧
      (⟨1, true, false⟩ : ObjState).isHovered = true) :=
  (hovered_excludes_selected [⟨some 2, some 1⟩] [⟨some 1⟩, ⟨some 2⟩]).1
    ⟨1, true, false⟩ (by decide)

end KinectTable
